import Mathlib

/-!
Verification development for the weak-form evaluation and differentiation
engine of `src/serac/numerics/functional/functional.hpp` and the Brighenti
liquid-crystal-elastomer material of
`src/serac/physics/materials/liquid_crystal_elastomer.hpp`.

Machine `double` values are modelled as exact rationals; the MPI prolongation
operators `P_test_` / `P_trial_` are taken to be the identity (a serial run),
as the spec delegates them to the external communication layer.
-/

set_option autoImplicit false

namespace SeracSpec

/-- Modelled from the spec: an `ElementRestriction` (element_restriction.hpp is
not under src/).  Per §4.2 of the spec, it records, for each element `e` and
each element-local dof `d`, which (possibly shared) local-vector entry it reads
and an orientation sign. -/
structure ERestriction (nE nD nL : Nat) where
  dof : Fin nE → Fin nD → Fin nL
  sign : Fin nE → Fin nD → ℚ

/-- Modelled from the spec: `ElementRestriction::Gather` — for each element and
each of its local dofs, copy the corresponding local-vector entry into the
element-vector slot, applying the orientation sign. -/
def ERestriction.Gather {nE nD nL : Nat} (R : ERestriction nE nD nL)
    (v : Fin nL → ℚ) : Fin nE → Fin nD → ℚ :=
  fun e d => R.sign e d * v (R.dof e d)

/-- Modelled from the spec: `ElementRestriction::ScatterAdd` — for each
element-local dof, add the sign-corrected element-vector contribution into the
shared local-vector entry; dofs shared by several elements accumulate all of
their contributions. -/
def ERestriction.ScatterAdd {nE nD nL : Nat} (R : ERestriction nE nD nL)
    (w : Fin nE → Fin nD → ℚ) (acc : Fin nL → ℚ) : Fin nL → ℚ :=
  fun j => acc j + ∑ e : Fin nE, ∑ d : Fin nD,
    if R.dof e d = j then R.sign e d * w e d else 0

/-- Inner product of two element vectors (summed over elements and dofs). -/
def edot {nE nD : Nat} (a b : Fin nE → Fin nD → ℚ) : ℚ :=
  ∑ e : Fin nE, ∑ d : Fin nD, a e d * b e d

/-- Inner product of two local vectors. -/
def ldot {nL : Nat} (a b : Fin nL → ℚ) : ℚ :=
  ∑ j : Fin nL, a j * b j

/-- C3: for every local vector `v` and element vector `w` of compatible shape,
`dot(Gather(v), w) = dot(v, ScatterAdd(w))` (scatter-add into a zero local
vector): `Gather` and `ScatterAdd` are exact adjoints of one another, so
contributions from all elements sharing a local dof accumulate correctly. -/
theorem gather_scatterAdd_adjoint {nE nD nL : Nat} (R : ERestriction nE nD nL)
    (v : Fin nL → ℚ) (w : Fin nE → Fin nD → ℚ) :
    edot (R.Gather v) w = ldot v (R.ScatterAdd w (fun _ => 0)) := by
  unfold edot ldot ERestriction.Gather ERestriction.ScatterAdd
  simp only [zero_add, Finset.mul_sum, mul_ite, mul_zero]
  conv_rhs => rw [Finset.sum_comm]
  refine Finset.sum_congr rfl (fun e _ => ?_)
  conv_rhs => rw [Finset.sum_comm]
  refine Finset.sum_congr rfl (fun d _ => ?_)
  rw [Finset.sum_ite_eq]
  simp [mul_comm, mul_left_comm]

/-- Modelled from the spec: `Integral::GradientMult` (integral.hpp is not under
src/) applies the cached per-element Jacobian block `K e` for the designated
trial argument to the element-vector perturbation, per §4.4 of the spec. -/
def gradientMult {nE nDt nDr : Nat} (K : Fin nE → Fin nDt → Fin nDr → ℚ)
    (inE : Fin nE → Fin nDr → ℚ) : Fin nE → Fin nDt → ℚ :=
  fun e t => ∑ d : Fin nDr, K e t d * inE e d

/-- Configuration of a single-trial-space serial Functional with one domain
integral whose per-element Jacobian blocks are `K`: the trial and test element
restrictions `G_trial_[which]` / `G_test_` and the cached blocks. -/
structure GradCfg (nE nDt nDr nLt nLr : Nat) where
  Rtest : ERestriction nE nDt nLt
  Rtrial : ERestriction nE nDr nLr
  K : Fin nE → Fin nDt → Fin nDr → ℚ

/-- Embedded from `Functional::ActionOfGradient` (functional.hpp lines 417-443)
for a serial run with a single registered integral: prolongate (identity),
gather the trial local vector, apply `GradientMult`, scatter-add into a zeroed
`output_L_`, and prolongate-transpose (identity). -/
def actionOfGradient {nE nDt nDr nLt nLr : Nat} (cfg : GradCfg nE nDt nDr nLt nLr)
    (inputT : Fin nLr → ℚ) : Fin nLt → ℚ :=
  let inputL := inputT
  let inputE := cfg.Rtrial.Gather inputL
  let outputE := gradientMult cfg.K inputE
  cfg.Rtest.ScatterAdd outputE (fun _ => 0)

/-- The reusable CSR sparsity pattern held by `GradientAssemblyLookupTables`:
row pointers and sorted column indices. -/
structure CSRPattern (nrows ncols nnz : Nat) where
  rowPtr : Fin (nrows + 1) → Nat
  colInd : Fin nnz → Fin ncols

/-- Embedded from `Functional::Gradient::assemble` (functional.hpp lines
570-650): the nonzero-value array is zero-initialized
(`double* values = new double[lookup_tables.nnz]{};`, line 582) and the loops
that would add `sign * K_elem(e, i, j)` at the looked-up offsets (lines
587-625) are commented out, so every value stays zero. -/
def assembleValues (nnz : Nat) : Fin nnz → ℚ := fun _ => 0

/-- Matrix-vector product of a CSR matrix: row `r` sums `values[k] * v[col[k]]`
over the nonzero range `[rowPtr r, rowPtr (r+1))`. -/
def csrMatVec {nrows ncols nnz : Nat} (pat : CSRPattern nrows ncols nnz)
    (values : Fin nnz → ℚ) (v : Fin ncols → ℚ) : Fin nrows → ℚ :=
  fun r => ∑ k : Fin nnz,
    if pat.rowPtr r.castSucc ≤ k.val ∧ k.val < pat.rowPtr r.succ
    then values k * v (pat.colInd k) else 0

/-- The matrix returned by `Gradient::assemble()` applied to a true-dof vector
(serial run, so the RAP triple product with identity prolongations leaves the
local CSR matrix unchanged). -/
def assembledGradientMatVec {nrows ncols nnz : Nat} (pat : CSRPattern nrows ncols nnz)
    (v : Fin ncols → ℚ) : Fin nrows → ℚ :=
  csrMatVec pat (assembleValues nnz) v

/-- A one-element, one-dof mesh: its sole element restriction entry reads local
dof 0 with sign +1. -/
def trivialRestriction : ERestriction 1 1 1 :=
  { dof := fun _ _ => 0, sign := fun _ _ => 1 }

/-- One element, one test dof, one trial dof, per-element Jacobian block
K = [[1]] (e.g. the mass "matrix" of the q-function f(u) = u on a point mass). -/
def unitGradCfg : GradCfg 1 1 1 1 1 :=
  { Rtest := trivialRestriction, Rtrial := trivialRestriction, K := fun _ _ _ => 1 }

/-- The corresponding 1 x 1 sparsity pattern with a single nonzero slot. -/
def unitCSRPattern : CSRPattern 1 1 1 :=
  { rowPtr := ![0, 1], colInd := fun _ => 0 }

/-- C1: refuted on the code (code bug).  For the one-element configuration
`unitGradCfg` with per-element Jacobian block [[1]] and true-dof vector [1],
`ActionOfGradient` returns [1], but the sparse matrix returned by
`Gradient::assemble()` applied to the same vector returns [0], because the
value-accumulation loops of `assemble` are commented out and the zero-initialized
value array is used as-is.  The claimed equality of assembly and matrix-free
action therefore fails. -/
theorem assemble_zero_disagrees_with_action :
    actionOfGradient unitGradCfg (fun _ => 1) 0 = 1
    ∧ assembledGradientMatVec unitCSRPattern (fun _ => 1) 0 = 0 := by
  constructor
  · simp [actionOfGradient, gradientMult, ERestriction.Gather, ERestriction.ScatterAdd,
      unitGradCfg, trivialRestriction]
  · simp [assembledGradientMatVec, csrMatVec, assembleValues]

/-- Embedded from the `Functional` constructor (functional.hpp lines 231-310):
the compiled constructor body only stores `P_test_`; the loop
`grad_.emplace_back(*this, i)` (line 271) that would append one `Gradient` per
trial space is inside an `#if 0` block, so `grad_` is left empty.  The result
lists the `which_argument` of each `Gradient` in `grad_` after construction,
for a Functional with the given number of trial spaces. -/
def functionalCtorGradArgs (_numTrialSpaces : Nat) : List Nat := []

/-- C2: refuted on the code (code bug).  After constructing a
`Functional<test(trial)>` with one trial space, the gradient list `grad_` is
empty, so the access `grad_[wrt]` performed by `operator()` for `wrt = 0` is out
of bounds, contradicting the claim that a Gradient object exists for every
trial argument after construction. -/
theorem grad_list_empty_after_construction :
    functionalCtorGradArgs 1 = [] ∧ ¬ 0 < (functionalCtorGradArgs 1).length := by
  exact ⟨rfl, by decide⟩

/-- The mfem element geometry types (mfem::Element::Type) that can appear in a
mesh. -/
inductive ElemType
  | POINT | SEGMENT | TRIANGLE | QUADRILATERAL | TETRAHEDRON | HEXAHEDRON | WEDGE | PYRAMID
deriving DecidableEq, BEq

/-- A mesh as seen through the mfem::Mesh interface used by functional.hpp:
its dimension and the geometry type of each element (`GetNE` is the element
count). -/
structure MeshM where
  dimension : Nat
  elemTypes : List ElemType
deriving DecidableEq

/-- Element count of the mesh, `mfem::Mesh::GetNE()`. -/
def MeshM.GetNE (m : MeshM) : Nat := m.elemTypes.length

/-- Embedded from `contains_unsupported_elements` (functional.hpp lines
104-114): true when some element of the mesh is a point, wedge, or pyramid. -/
def contains_unsupported_elements (m : MeshM) : Bool :=
  m.elemTypes.any fun t => t == .POINT || t == .WEDGE || t == .PYRAMID

/-- The two integral families of `Integral::Type` (`Integral::num_types = 2`). -/
inductive ITyp
  | Domain | Boundary
deriving DecidableEq

/-- The data of one registered Integral that the registration-level claims are
about: its family, its quadrature order, and the trial spaces it depends on. -/
structure IntegralRec where
  itype : ITyp
  quadOrder : Nat
  activeTrialSpaces : List Nat
deriving DecidableEq

/-- The registration-level state of a `Functional<test(trials...)>`: the test
polynomial order, the trial polynomial orders, and the registered integrals. -/
structure FunctionalRec where
  testOrder : Nat
  trialOrders : List Nat
  integrals : List IntegralRec
deriving DecidableEq

/-- Embedded from functional.hpp line 205:
`static constexpr auto Q = std::max(\x7btest::order, trials::order...\x7d) + 1`. -/
def functionalQ (f : FunctionalRec) : Nat :=
  f.trialOrders.foldl max f.testOrder + 1

/-- Embedded from `Functional::AddDomainIntegral` (functional.hpp lines
323-335): return immediately (registering nothing) when the domain has zero
elements; otherwise signal a configuration error (`SLIC_ERROR_ROOT_IF`) when
the declared dimension differs from the mesh dimension or the mesh contains an
unsupported element type; only then append a new domain Integral built with
quadrature order `Q`. -/
def AddDomainIntegral (f : FunctionalRec) (dim : Nat) (args : List Nat)
    (domain : MeshM) : Except String FunctionalRec :=
  if domain.GetNE = 0 then .ok f
  else if dim ≠ domain.dimension then .error "invalid mesh dimension for domain integral"
  else if contains_unsupported_elements domain then .error "Mesh contains unsupported element type"
  else .ok { f with integrals := f.integrals ++
    [{ itype := .Domain, quadOrder := functionalQ f, activeTrialSpaces := args }] }

/-- C4: for every mesh with zero elements, `AddDomainIntegral` returns without
signaling any error and registers no Integral (the Functional is returned
unchanged), even when the declared dimension or element types would otherwise
be rejected; construction does not fail on account of such a term. -/
theorem zero_element_domain_is_noop (f : FunctionalRec) (dim : Nat)
    (args : List Nat) (domain : MeshM) (h : domain.GetNE = 0) :
    AddDomainIntegral f dim args domain = .ok f := by
  simp [AddDomainIntegral, h]

/-- Witness for C4: a 2-dimensional mesh with no elements, added with declared
dimension 3 (which would be a dimension mismatch if checked), is still a
silent no-op. -/
theorem zero_element_domain_is_noop_witness :
    (MeshM.mk 2 []).GetNE = 0
    ∧ AddDomainIntegral ⟨1, [1], []⟩ 3 [0] (MeshM.mk 2 []) = .ok ⟨1, [1], []⟩ :=
  ⟨rfl, zero_element_domain_is_noop ⟨1, [1], []⟩ 3 [0] (MeshM.mk 2 []) rfl⟩

/-- C5: for every mesh with at least one element, a declared-dimension mismatch
or the presence of a point, wedge, or pyramid element makes `AddDomainIntegral`
signal a configuration error at that call, and no Integral is registered (the
call aborts with the error instead of returning an updated Functional). -/
theorem config_error_signaled_before_registration (f : FunctionalRec) (dim : Nat)
    (args : List Nat) (domain : MeshM) (hne : domain.GetNE ≠ 0)
    (herr : dim ≠ domain.dimension ∨ contains_unsupported_elements domain = true) :
    ∃ msg, AddDomainIntegral f dim args domain = .error msg := by
  rcases herr with h | h
  · exact ⟨"invalid mesh dimension for domain integral", by simp [AddDomainIntegral, hne, h]⟩
  · by_cases hd : dim = domain.dimension
    · exact ⟨"Mesh contains unsupported element type", by simp [AddDomainIntegral, hne, hd, h]⟩
    · exact ⟨"invalid mesh dimension for domain integral", by simp [AddDomainIntegral, hne, hd]⟩

/-- Witness for C5: a one-wedge mesh of dimension 3, added with matching
declared dimension 3, is rejected with a configuration error. -/
theorem config_error_signaled_witness :
    (MeshM.mk 3 [ElemType.WEDGE]).GetNE ≠ 0
    ∧ ∃ msg, AddDomainIntegral ⟨1, [1], []⟩ 3 [0] (MeshM.mk 3 [ElemType.WEDGE]) = .error msg :=
  ⟨by decide, config_error_signaled_before_registration ⟨1, [1], []⟩ 3 [0]
    (MeshM.mk 3 [ElemType.WEDGE]) (by decide) (Or.inr (by decide))⟩

theorem le_foldl_max (l : List Nat) (a : Nat) : a ≤ l.foldl max a := by
  induction l generalizing a with
  | nil => exact Nat.le_refl a
  | cons b t ih => exact le_trans (Nat.le_max_left a b) (ih (max a b))

theorem le_foldl_max_of_mem {l : List Nat} {o : Nat} (a : Nat) (h : o ∈ l) :
    o ≤ l.foldl max a := by
  induction l generalizing a with
  | nil => cases h
  | cons b t ih =>
    rcases List.mem_cons.mp h with rfl | h2
    · exact le_trans (Nat.le_max_right a o) (le_foldl_max t (max a o))
    · exact ih (max a b) h2

theorem foldl_max_mem (l : List Nat) (a : Nat) : l.foldl max a ∈ a :: l := by
  induction l generalizing a with
  | nil => exact List.Mem.head _
  | cons b t ih =>
    have h := ih (max a b)
    rcases List.mem_cons.mp h with heq | h2
    · rw [List.foldl_cons, heq]
      rcases max_choice a b with h3 | h3 <;> rw [h3]
      · exact List.Mem.head _
      · exact List.Mem.tail _ (List.Mem.head _)
    · exact List.Mem.tail _ (List.Mem.tail _ h2)

/-- C7: every Integral newly registered by `AddDomainIntegral` has quadrature
order equal to the maximum polynomial order among the test space and all trial
spaces, plus one (`AddDomainIntegral` takes no order argument, so there is no
per-Integral override). -/
theorem quadrature_order_is_max_plus_one (f : FunctionalRec) (dim : Nat)
    (args : List Nat) (domain : MeshM) (fres : FunctionalRec) (I : IntegralRec)
    (hok : AddDomainIntegral f dim args domain = .ok fres)
    (hI : I ∈ fres.integrals) (hnew : I ∉ f.integrals) :
    ∃ M, I.quadOrder = M + 1 ∧ M ∈ f.testOrder :: f.trialOrders
      ∧ ∀ o ∈ f.testOrder :: f.trialOrders, o ≤ M := by
  unfold AddDomainIntegral at hok
  by_cases h0 : domain.GetNE = 0
  · rw [if_pos h0] at hok
    injection hok with h
    subst h
    exact absurd hI hnew
  · rw [if_neg h0] at hok
    by_cases hd : dim ≠ domain.dimension
    · rw [if_pos hd] at hok
      simp at hok
    · rw [if_neg hd] at hok
      by_cases hu : contains_unsupported_elements domain = true
      · rw [if_pos hu] at hok
        simp at hok
      · rw [if_neg hu] at hok
        injection hok with h
        subst h
        rcases List.mem_append.mp hI with hold | hsing
        · exact absurd hold hnew
        · have hEq : I = ⟨ITyp.Domain, functionalQ f, args⟩ := List.mem_singleton.mp hsing
          subst hEq
          refine ⟨f.trialOrders.foldl max f.testOrder, rfl, foldl_max_mem _ _, ?_⟩
          intro o ho
          rcases List.mem_cons.mp ho with rfl | h2
          · exact le_foldl_max _ _
          · exact le_foldl_max_of_mem _ h2

/-- Witness for C7: `Functional<order1Test(order2Trial)>` gives Q = max(1,2)+1
= 3, and the integral registered over a one-quad 2D mesh carries exactly that
order. -/
theorem quadrature_order_witness :
    ∃ M, (IntegralRec.mk ITyp.Domain 3 [0]).quadOrder = M + 1
      ∧ M ∈ (1 : Nat) :: [2] ∧ ∀ o ∈ (1 : Nat) :: [2], o ≤ M :=
  quadrature_order_is_max_plus_one ⟨1, [2], []⟩ 2 [0] (MeshM.mk 2 [ElemType.QUADRILATERAL])
    ⟨1, [2], [⟨ITyp.Domain, 3, [0]⟩]⟩ ⟨ITyp.Domain, 3, [0]⟩ rfl (by decide) (by decide)

/-- Embedded from `index_of_differentiation` (functional.hpp lines 80-91): scan
the argument-type list — represented by the list of
`std::is_same_v<T, differentiate_wrt_this>` flags the C++ builds at line 84 —
and return the first index whose flag is set, or -1 when none is. -/
def index_of_differentiation (matching : List Bool) : Int :=
  match matching with
  | [] => -1
  | b :: rest =>
    if b then 0
    else if index_of_differentiation rest = -1 then -1
    else index_of_differentiation rest + 1

/-- Embedded from functional.hpp line 514: the fold expression
`(std::is_same_v<T, differentiate_wrt_this> + ...)`. -/
def num_differentiated_arguments (matching : List Bool) : Nat :=
  (matching.map fun b => if b then 1 else 0).sum

/-- Embedded from the two static asserts of the variadic
`Functional::operator()` (functional.hpp lines 515-518): the call compiles iff
at most one argument is differentiated and the argument count equals the number
of trial spaces. -/
def operator_paren_compiles (matching : List Bool) (numTrialSpaces : Nat) : Prop :=
  num_differentiated_arguments matching ≤ 1 ∧ matching.length = numTrialSpaces

theorem index_of_differentiation_not_mem {l : List Bool} (h : true ∉ l) :
    index_of_differentiation l = -1 := by
  induction l with
  | nil => rfl
  | cons b rest ih =>
    have hb : b = false := by
      cases b
      · rfl
      · exact absurd (List.Mem.head _) h
    subst hb
    have hrest : true ∉ rest := fun hm => h (List.Mem.tail _ hm)
    simp [index_of_differentiation, ih hrest]

theorem num_differentiated_eq_count (l : List Bool) :
    num_differentiated_arguments l = l.count true := by
  induction l with
  | nil => rfl
  | cons b rest ih =>
    cases b <;> simp [num_differentiated_arguments, List.count_cons] at * <;> omega

/-- C9: `index_of_differentiation` returns the smallest index at which the flag
for `differentiate_wrt_this` is set (the list's first index of `true`), and -1
when it is set nowhere; and the variadic `operator()` overload accepts exactly
the calls with at most one differentiated argument and as many arguments as
trial spaces. -/
theorem index_of_differentiation_correct (matching : List Bool) (n : Nat) :
    (true ∈ matching → index_of_differentiation matching = (matching.indexOf true : Int))
    ∧ (true ∉ matching → index_of_differentiation matching = -1)
    ∧ (operator_paren_compiles matching n ↔
        matching.count true ≤ 1 ∧ matching.length = n) := by
  refine ⟨?_, index_of_differentiation_not_mem, ?_⟩
  · intro hmem
    induction matching with
    | nil => cases hmem
    | cons b rest ih =>
      cases b
      · have hrest : true ∈ rest := by
          rcases List.mem_cons.mp hmem with h | h
          · cases h
          · exact h
        have hne : index_of_differentiation rest ≠ -1 := by
          rw [ih hrest]
          omega
        rw [List.indexOf_cons_ne _ (by decide)]
        simp only [index_of_differentiation, if_neg Bool.false_ne_true, if_neg hne, ih hrest]
        push_cast
        ring
      · rw [List.indexOf_cons_self]
        rfl
  · unfold operator_paren_compiles
    rw [num_differentiated_eq_count]

/-- Witness for C9: with argument types (plain, differentiated, differentiated)
the index of differentiation is the first index of a set flag; a call with no
differentiated argument and three arguments against three trial spaces compiles. -/
theorem index_of_differentiation_witness :
    index_of_differentiation [false, true, true]
      = (([false, true, true] : List Bool).indexOf true : Int)
    ∧ (operator_paren_compiles [false, false, false] 3 ↔
        ([false, false, false] : List Bool).count true ≤ 1
        ∧ ([false, false, false] : List Bool).length = 3) :=
  ⟨(index_of_differentiation_correct [false, true, true] 3).1 (by decide),
   (index_of_differentiation_correct [false, false, false] 3).2.2⟩

/-- The per-quadrature-point state of `BrighentiMechanical`
(liquid_crystal_elastomer.hpp lines 33-37), with doubles as rationals. -/
structure BrighentiState where
  deformation_gradient : Fin 3 → Fin 3 → ℚ
  distribution_tensor : Fin 3 → Fin 3 → ℚ
  temperature : ℚ

/-- The 3x3 identity tensor, `Identity<3>()` / `DenseIdentity<3>()`. -/
def id3 : Fin 3 → Fin 3 → ℚ := fun i j => if i = j then 1 else 0

/-- Embedded from the state-update portion of `BrighentiMechanical::operator()`
(liquid_crystal_elastomer.hpp lines 89 and 107-110): it unconditionally
overwrites all three fields of its `State` argument — the deformation gradient
with `F = displacement_grad + I`, the temperature with the current temperature,
and the distribution tensor with the computed `mu` — without consulting any
update flag.  `mu` is passed in here because its value (lines 95, 130-156) does
not affect which fields are written. -/
def brighentiUpdatedState (displacement_grad mu : Fin 3 → Fin 3 → ℚ)
    (temperature : ℚ) (_state : BrighentiState) : BrighentiState :=
  { deformation_gradient := fun i j => displacement_grad i j + id3 i j
    distribution_tensor := mu
    temperature := temperature }

/-- Modelled from the spec: the quadrature-point loop of `Integral::Mult`
(integral.hpp / domain_integral.hpp are not under src/).  Per §4.3-4.4 of the
spec, each quadrature point's q-function invocation receives that point's
persisted state, and the persistent buffer is overwritten with the updated
states only when the update flag — the `update_qdata` member that
`Functional::operator()` passes down at functional.hpp line 482 — is set for
this call; otherwise the buffer is left untouched. -/
def integralMult {S O : Type} (qf : S → O × S) (update_qdata : Bool)
    (qdata : List S) : List O × List S :=
  let results := qdata.map qf
  (results.map Prod.fst, if update_qdata then results.map Prod.snd else qdata)

/-- C8: for every q-function (including ones, like `BrighentiMechanical`, that
unconditionally write their State argument) and every persistent state buffer,
a residual evaluation with the update-state flag unset leaves the buffer
unchanged; the buffer is replaced at most once per evaluation and only when
the flag is set. -/
theorem qdata_unchanged_when_flag_unset {S O : Type} (qf : S → O × S)
    (update_qdata : Bool) (qdata : List S) (h : update_qdata = false) :
    (integralMult qf update_qdata qdata).2 = qdata := by
  subst h
  simp [integralMult]

/-- The Brighenti material as a q-function on quadrature-point state, at a
fixed displacement gradient (all ones), distribution tensor and temperature. -/
def brighentiQf : BrighentiState → (Unit × BrighentiState) :=
  fun s => ((), brighentiUpdatedState (fun _ _ => 1) (fun _ _ => 0) 2 s)

/-- A sample quadrature-point state (all zero). -/
def sampleState : BrighentiState :=
  { deformation_gradient := fun _ _ => 0, distribution_tensor := fun _ _ => 0
    temperature := 0 }

/-- Witness for C8: the Brighenti q-function does rewrite its state argument
(the temperature changes), yet an evaluation with the flag unset leaves the
one-point state buffer exactly as it was. -/
theorem qdata_unchanged_witness :
    (brighentiQf sampleState).2.temperature ≠ sampleState.temperature
    ∧ (integralMult brighentiQf false [sampleState]).2 = [sampleState] :=
  ⟨by decide, qdata_unchanged_when_flag_unset brighentiQf false [sampleState] rfl⟩

/-- Sum of squares of a 3-vector: the square of the Euclidean tensor norm
`norm(v)` from serac's tensor.hpp (not under src/). -/
def normSq (v : Fin 3 → ℚ) : ℚ := ∑ i : Fin 3, v i * v i

/-- Embedded from `BrighentiMechanical::calculateInitialDistributionTensor`
(liquid_crystal_elastomer.hpp lines 117-126):
`N_b_squared/3 * ((1 - q0) * I + 3 * q0 * outer(normal, normal))`, computed
from the constructor argument `normal` exactly as passed (the constructor at
line 63 hands it the unnormalized vector). -/
def calculateInitialDistributionTensor (normal : Fin 3 → ℚ) (q0 N_b_squared : ℚ) :
    Fin 3 → Fin 3 → ℚ :=
  fun i j => N_b_squared / 3 * ((1 - q0) * id3 i j + 3 * q0 * (normal i * normal j))

/-- Embedded from the constructor initializer `normal_(normal/norm(normal))`
(liquid_crystal_elastomer.hpp line 61).  `s` stands for `norm(normal)`,
characterized in the theorems below by `0 < s` and `s * s = normSq normal`
(the unique positive square root computed by the norm). -/
def storedNormal (normal : Fin 3 → ℚ) (s : ℚ) : Fin 3 → ℚ :=
  fun i => normal i / s

/-- C10 counterexample: with order parameter q0 = 0 (which the constructor
accepts: lines 65-69 check only density, moduli, order constant and transition
temperature), the director (1,0,0) rescaled by c = 2 produces exactly the same
initial distribution tensor, refuting the claim that a rescaled director always
yields a different `initial_distribution_tensor_`. -/
theorem rescaled_director_same_tensor_at_zero_order :
    (![1, 0, 0] : Fin 3 → ℚ) ≠ (fun _ => 0)
    ∧ (0 : ℚ) < 2 ∧ (2 : ℚ) ≠ 1
    ∧ calculateInitialDistributionTensor (fun i => 2 * (![1, 0, 0] : Fin 3 → ℚ) i) 0 3
      = calculateInitialDistributionTensor ![1, 0, 0] 0 3 := by
  refine ⟨?_, two_pos, by decide, ?_⟩
  · intro h
    have h0 := congrFun h 0
    simp at h0
  · funext i j
    unfold calculateInitialDistributionTensor
    ring

/-- C10 (amended): for every nonzero director `v` (with norm `s`), the stored
director `normal_ = v / s` has unit norm, and rescaling the director by any
c > 0 leaves `normal_` unchanged (the norm of `c*v` is `c*s`); but the initial
distribution tensor is computed from the unnormalized input, so whenever the
order parameter and `N_b_squared` are nonzero and c differs from 1, the rescaled
director yields a different `initial_distribution_tensor_`. -/
theorem director_normalized_tensor_unnormalized (v : Fin 3 → ℚ) (s c q0 Nb2 : ℚ)
    (hs : 0 < s) (hsq : s * s = normSq v) (hc : 0 < c) (hc1 : c ≠ 1)
    (hq0 : q0 ≠ 0) (hNb2 : Nb2 ≠ 0) :
    normSq (storedNormal v s) = 1
    ∧ storedNormal (fun i => c * v i) (c * s) = storedNormal v s
    ∧ calculateInitialDistributionTensor (fun i => c * v i) q0 Nb2
      ≠ calculateInitialDistributionTensor v q0 Nb2 := by
  have hs0 : s ≠ 0 := ne_of_gt hs
  have hc0 : c ≠ 0 := ne_of_gt hc
  have hsum : v 0 * v 0 + v 1 * v 1 + v 2 * v 2 = s * s := by
    unfold normSq at hsq
    rw [Fin.sum_univ_three] at hsq
    linarith
  refine ⟨?_, ?_, ?_⟩
  · unfold normSq storedNormal
    rw [Fin.sum_univ_three]
    field_simp
    linarith [hsum]
  · funext i
    unfold storedNormal
    field_simp
    ring
  · have hv : ∃ i, v i ≠ 0 := by
      by_contra hall
      push_neg at hall
      rw [hall 0, hall 1, hall 2] at hsum
      nlinarith [hs]
    obtain ⟨i0, hi0⟩ := hv
    intro heq
    have h2 := congrFun (congrFun heq i0) i0
    unfold calculateInitialDistributionTensor id3 at h2
    rw [if_pos rfl] at h2
    have hNb23 : Nb2 / 3 ≠ 0 := div_ne_zero hNb2 (by norm_num)
    have h3 := mul_left_cancel₀ hNb23 h2
    have h4 : (c * c - 1) * (q0 * (v i0 * v i0)) = 0 := by linear_combination h3 / 3
    rcases mul_eq_zero.mp h4 with h5 | h5
    · have h6 : (c - 1) * (c + 1) = 0 := by linear_combination h5
      rcases mul_eq_zero.mp h6 with h7 | h7
      · exact hc1 (by linarith)
      · linarith
    · rcases mul_eq_zero.mp h5 with h7 | h7
      · exact hq0 h7
      · exact hi0 (mul_self_eq_zero.mp h7)

/-- Witness for C10 (amended): director (1,0,0) with norm 1, rescaled by c = 2,
with q0 = 1 and N_b_squared = 3. -/
theorem director_normalized_witness :
    normSq (storedNormal ![1, 0, 0] 1) = 1
    ∧ storedNormal (fun i => 2 * (![1, 0, 0] : Fin 3 → ℚ) i) (2 * 1)
      = storedNormal ![1, 0, 0] 1
    ∧ calculateInitialDistributionTensor (fun i => 2 * (![1, 0, 0] : Fin 3 → ℚ) i) 1 3
      ≠ calculateInitialDistributionTensor ![1, 0, 0] 1 3 :=
  director_normalized_tensor_unnormalized ![1, 0, 0] 1 2 1 3 one_pos
    (by simp [normSq, Fin.sum_univ_three]) two_pos (by decide) one_ne_zero (by decide)

/-- Pointwise update of a (integral type, trial space)-indexed table at one
entry, as done by the assignments `already_computed[type][i] = true` and
`G_trial_[i].Gather(input_L_[i], block_input_E_[type][i])`. -/
def updTable {n : Nat} {α : Type} (f : ITyp → Fin n → α) (t : ITyp) (i : Fin n)
    (a : α) : ITyp → Fin n → α :=
  fun u j => if u = t ∧ j = i then a else f u j

/-- One registered Integral as seen by the evaluation pipeline: its family, the
trial spaces it depends on (`integral.active_trial_spaces`), and its `Mult`
kernel, which consumes the E-vectors of exactly its active trial spaces (in
order) and produces the output E-vector.  (That `Integral::Mult` reads only its
active trial spaces is modelled from the spec, §3 "Integral"; integral.hpp is
not under src/.) -/
structure IntegralM (n : Nat) (EV : Type) where
  itype : ITyp
  active : List (Fin n)
  mult : List EV → EV

/-- The evaluation-level configuration of a Functional: the per-trial-space
gather operators `G_trial_[i].Gather`, the test-space scatter-add
`G_test_.ScatterAdd` accumulating into the running local residual, and the
registered integrals (in registration order). -/
structure EvalCfg (n : Nat) (LV EV : Type) where
  gatherOp : Fin n → LV → EV
  scatterAddOp : EV → LV → LV
  integrals : List (IntegralM n EV)

/-- The state of one `operator()` call: the `already_computed` flags, the
`block_input_E_` scratch table, the running `output_L_`, and an instrumentation
log recording each gather actually performed (as a (type, trial space) pair). -/
structure PState (n : Nat) (LV EV : Type) where
  already : ITyp → Fin n → Bool
  blockE : ITyp → Fin n → EV
  outL : LV
  glog : List (ITyp × Fin n)

/-- Embedded from the inner loop of `Functional::operator()` (functional.hpp
lines 475-480): for each active trial space of the integral, gather only if the
`already_computed` flag for (type, space) is still unset, then set it. -/
def gatherLoop {n : Nat} {LV EV : Type} (g : Fin n → LV → EV) (inputL : Fin n → LV)
    (t : ITyp) : List (Fin n) → PState n LV EV → PState n LV EV
  | [], s => s
  | i :: rest, s =>
    if s.already t i then gatherLoop g inputL t rest s
    else gatherLoop g inputL t rest
      { already := updTable s.already t i true
        blockE := updTable s.blockE t i (g i (inputL i))
        outL := s.outL
        glog := s.glog ++ [(t, i)] }

/-- Embedded from the body of the loop over `integrals_` (functional.hpp lines
472-486): run the gather loop, invoke `integral.Mult` on the gathered
E-vectors, and scatter-add its output into `output_L_`. -/
def integralStep {n : Nat} {LV EV : Type} (cfg : EvalCfg n LV EV)
    (inputL : Fin n → LV) (I : IntegralM n EV) (s : PState n LV EV) :
    PState n LV EV :=
  let s1 := gatherLoop cfg.gatherOp inputL I.itype I.active s
  { s1 with
    outL := cfg.scatterAddOp (I.mult (I.active.map fun i => s1.blockE I.itype i)) s1.outL }

/-- The loop over all registered integrals. -/
def runIntegrals {n : Nat} {LV EV : Type} (cfg : EvalCfg n LV EV)
    (inputL : Fin n → LV) : List (IntegralM n EV) → PState n LV EV → PState n LV EV
  | [], s => s
  | I :: rest, s => runIntegrals cfg inputL rest (integralStep cfg inputL I s)

/-- Embedded from `Functional::operator()` (functional.hpp lines 456-489), at
the local-vector level (the prolongation `P_trial_`/`P_test_` steps are the
identity in a serial run): zero `output_L_`, reset every `already_computed`
flag to false — it is a local array default-initialized at the start of each
call (line 470) — and process every registered integral in order.  `blockE0`
is whatever the scratch `block_input_E_` tables hold from previous calls. -/
def operatorParen {n : Nat} {LV EV : Type} (cfg : EvalCfg n LV EV)
    (inputL : Fin n → LV) (zeroL : LV) (blockE0 : ITyp → Fin n → EV) :
    PState n LV EV :=
  runIntegrals cfg inputL cfg.integrals
    { already := fun _ _ => false, blockE := blockE0, outL := zeroL, glog := [] }

/-- The reference pipeline that gathers each required trial space's E-vector
afresh for every Integral (no deduplication), producing only the local
residual. -/
def runFresh {n : Nat} {LV EV : Type} (cfg : EvalCfg n LV EV)
    (inputL : Fin n → LV) : List (IntegralM n EV) → LV → LV
  | [], out => out
  | I :: rest, out => runFresh cfg inputL rest
      (cfg.scatterAddOp (I.mult (I.active.map fun i => cfg.gatherOp i (inputL i))) out)

/-- Number of gathers performed for the pair (integral type, trial space),
read off the instrumentation log. -/
def gcount {n : Nat} (l : List (ITyp × Fin n)) (u : ITyp) (j : Fin n) : Nat :=
  (l.filter fun p => decide (p = (u, j))).length

/-- The gathered-table invariant: every (type, space) whose flag is set holds
the gather of that trial space's current local vector. -/
def blockOK {n : Nat} {LV EV : Type} (g : Fin n → LV → EV) (inputL : Fin n → LV)
    (s : PState n LV EV) : Prop :=
  ∀ u j, s.already u j = true → s.blockE u j = g j (inputL j)

/-- The log invariant: the log holds exactly one gather for each set flag. -/
def countOK {n : Nat} {LV EV : Type} (s : PState n LV EV) : Prop :=
  ∀ u j, gcount s.glog u j = if s.already u j = true then 1 else 0

theorem gcount_append {n : Nat} (l1 l2 : List (ITyp × Fin n)) (u : ITyp) (j : Fin n) :
    gcount (l1 ++ l2) u j = gcount l1 u j + gcount l2 u j := by
  simp [gcount, List.filter_append]

theorem gcount_single {n : Nat} (t u : ITyp) (i j : Fin n) :
    gcount [(t, i)] u j = if ((t, i) : ITyp × Fin n) = (u, j) then 1 else 0 := by
  by_cases h : ((t, i) : ITyp × Fin n) = (u, j) <;> simp [gcount, h]

theorem gatherLoop_outL {n : Nat} {LV EV : Type} (g : Fin n → LV → EV)
    (inputL : Fin n → LV) (t : ITyp) (l : List (Fin n)) (s : PState n LV EV) :
    (gatherLoop g inputL t l s).outL = s.outL := by
  induction l generalizing s with
  | nil => rfl
  | cons i rest ih =>
    unfold gatherLoop
    by_cases h : s.already t i
    · rw [if_pos h]
      exact ih s
    · rw [if_neg h]
      exact ih _

theorem gatherLoop_already {n : Nat} {LV EV : Type} (g : Fin n → LV → EV)
    (inputL : Fin n → LV) (t : ITyp) (l : List (Fin n)) (s : PState n LV EV)
    (u : ITyp) (j : Fin n) :
    (gatherLoop g inputL t l s).already u j = true
      ↔ (s.already u j = true ∨ (u = t ∧ j ∈ l)) := by
  induction l generalizing s with
  | nil => simp [gatherLoop]
  | cons i rest ih =>
    unfold gatherLoop
    by_cases h : s.already t i
    · rw [if_pos h, ih]
      constructor
      · rintro (hs | ⟨rfl, hm⟩)
        · left; exact hs
        · right; exact ⟨rfl, List.Mem.tail _ hm⟩
      · rintro (hs | ⟨rfl, hm⟩)
        · left; exact hs
        · rcases List.mem_cons.mp hm with rfl | hm2
          · left; exact h
          · right; exact ⟨rfl, hm2⟩
    · rw [if_neg h, ih]
      dsimp only [updTable]
      constructor
      · rintro (hs | ⟨rfl, hm⟩)
        · by_cases hui : u = t ∧ j = i
          · right
            refine ⟨hui.1, ?_⟩
            rw [hui.2]
            exact List.Mem.head _
          · rw [if_neg hui] at hs
            left; exact hs
        · right; exact ⟨rfl, List.Mem.tail _ hm⟩
      · rintro (hs | ⟨rfl, hm⟩)
        · left
          by_cases hui : u = t ∧ j = i
          · rw [if_pos hui]
          · rw [if_neg hui]; exact hs
        · rcases List.mem_cons.mp hm with rfl | hm2
          · left
            rw [if_pos ⟨rfl, rfl⟩]
          · right; exact ⟨rfl, hm2⟩

theorem gatherLoop_blockOK {n : Nat} {LV EV : Type} (g : Fin n → LV → EV)
    (inputL : Fin n → LV) (t : ITyp) (l : List (Fin n)) (s : PState n LV EV)
    (hOK : blockOK g inputL s) : blockOK g inputL (gatherLoop g inputL t l s) := by
  induction l generalizing s with
  | nil => exact hOK
  | cons i rest ih =>
    unfold gatherLoop
    by_cases h : s.already t i
    · rw [if_pos h]
      exact ih s hOK
    · rw [if_neg h]
      refine ih _ ?_
      intro u j hj
      simp only [updTable] at hj ⊢
      by_cases hui : u = t ∧ j = i
      · rw [if_pos hui]
        rw [hui.2]
      · rw [if_neg hui] at hj ⊢
        exact hOK u j hj

theorem gatherLoop_countOK {n : Nat} {LV EV : Type} (g : Fin n → LV → EV)
    (inputL : Fin n → LV) (t : ITyp) (l : List (Fin n)) (s : PState n LV EV)
    (hOK : countOK s) : countOK (gatherLoop g inputL t l s) := by
  induction l generalizing s with
  | nil => exact hOK
  | cons i rest ih =>
    unfold gatherLoop
    by_cases h : s.already t i
    · rw [if_pos h]
      exact ih s hOK
    · rw [if_neg h]
      refine ih _ ?_
      intro u j
      simp only [updTable, gcount_append, gcount_single, hOK u j]
      by_cases hui : u = t ∧ j = i
      · obtain ⟨rfl, rfl⟩ := hui
        simp [h]
      · have hpair : ((t, i) : ITyp × Fin n) ≠ (u, j) := by
          intro hc
          injection hc with h1 h2
          exact hui ⟨h1.symm, h2.symm⟩
        simp [hui, hpair]

theorem integralStep_outL {n : Nat} {LV EV : Type} (cfg : EvalCfg n LV EV)
    (inputL : Fin n → LV) (I : IntegralM n EV) (s : PState n LV EV) :
    (integralStep cfg inputL I s).outL
      = cfg.scatterAddOp
          (I.mult (I.active.map fun i =>
            (gatherLoop cfg.gatherOp inputL I.itype I.active s).blockE I.itype i))
          (gatherLoop cfg.gatherOp inputL I.itype I.active s).outL := rfl

theorem integralStep_blockOK {n : Nat} {LV EV : Type} (cfg : EvalCfg n LV EV)
    (inputL : Fin n → LV) (I : IntegralM n EV) (s : PState n LV EV)
    (hOK : blockOK cfg.gatherOp inputL s) :
    blockOK cfg.gatherOp inputL (integralStep cfg inputL I s) :=
  gatherLoop_blockOK cfg.gatherOp inputL I.itype I.active s hOK

theorem integralStep_countOK {n : Nat} {LV EV : Type} (cfg : EvalCfg n LV EV)
    (inputL : Fin n → LV) (I : IntegralM n EV) (s : PState n LV EV)
    (hOK : countOK s) : countOK (integralStep cfg inputL I s) :=
  gatherLoop_countOK cfg.gatherOp inputL I.itype I.active s hOK

theorem runIntegrals_countOK {n : Nat} {LV EV : Type} (cfg : EvalCfg n LV EV)
    (inputL : Fin n → LV) (l : List (IntegralM n EV)) (s : PState n LV EV)
    (hOK : countOK s) : countOK (runIntegrals cfg inputL l s) := by
  induction l generalizing s with
  | nil => exact hOK
  | cons I rest ih => exact ih _ (integralStep_countOK cfg inputL I s hOK)

theorem runIntegrals_already {n : Nat} {LV EV : Type} (cfg : EvalCfg n LV EV)
    (inputL : Fin n → LV) (l : List (IntegralM n EV)) (s : PState n LV EV)
    (u : ITyp) (j : Fin n) :
    (runIntegrals cfg inputL l s).already u j = true
      ↔ (s.already u j = true ∨ ∃ I ∈ l, I.itype = u ∧ j ∈ I.active) := by
  induction l generalizing s with
  | nil => simp [runIntegrals]
  | cons I rest ih =>
    unfold runIntegrals
    rw [ih]
    have hstep : (integralStep cfg inputL I s).already u j = true
        ↔ (s.already u j = true ∨ (u = I.itype ∧ j ∈ I.active)) :=
      gatherLoop_already cfg.gatherOp inputL I.itype I.active s u j
    rw [hstep]
    constructor
    · rintro ((hs | ⟨rfl, hm⟩) | ⟨J, hJ, hJ2⟩)
      · left; exact hs
      · right; exact ⟨I, List.Mem.head _, rfl, hm⟩
      · right; exact ⟨J, List.Mem.tail _ hJ, hJ2⟩
    · rintro (hs | ⟨J, hJ, hJ2⟩)
      · left; left; exact hs
      · rcases List.mem_cons.mp hJ with rfl | hJr
        · left; right; exact ⟨hJ2.1.symm, hJ2.2⟩
        · right; exact ⟨J, hJr, hJ2⟩

theorem runIntegrals_outL {n : Nat} {LV EV : Type} (cfg : EvalCfg n LV EV)
    (inputL : Fin n → LV) (l : List (IntegralM n EV)) (s : PState n LV EV)
    (hOK : blockOK cfg.gatherOp inputL s) :
    (runIntegrals cfg inputL l s).outL = runFresh cfg inputL l s.outL := by
  induction l generalizing s with
  | nil => rfl
  | cons I rest ih =>
    unfold runIntegrals runFresh
    have hmap : I.active.map (fun i => (gatherLoop cfg.gatherOp inputL I.itype I.active s).blockE I.itype i)
        = I.active.map (fun i => cfg.gatherOp i (inputL i)) := by
      apply List.map_congr_left
      intro i hi
      refine gatherLoop_blockOK cfg.gatherOp inputL I.itype I.active s hOK I.itype i ?_
      rw [gatherLoop_already]
      right
      exact ⟨rfl, hi⟩
    have houtL : (integralStep cfg inputL I s).outL
        = cfg.scatterAddOp (I.mult (I.active.map fun i => cfg.gatherOp i (inputL i))) s.outL := by
      rw [integralStep_outL, hmap, gatherLoop_outL]
    rw [ih _ (integralStep_blockOK cfg inputL I s hOK), houtL]

/-- C6: within one call of `Functional::operator()`, the gather of a trial
space's local vector into its element vector is performed exactly once for
each (integral type, trial space) pair needed by at least one registered
Integral — and not at all for pairs no Integral needs — even when several
Integrals share a trial space; since `already_computed` starts all-false in
every call (it is a local array), each call gathers the current inputs afresh;
and the local residual equals the one produced by the reference pipeline that
gathers once per Integral. -/
theorem gather_deduplicated {n : Nat} {LV EV : Type} (cfg : EvalCfg n LV EV)
    (inputL : Fin n → LV) (zeroL : LV) (blockE0 : ITyp → Fin n → EV)
    (t : ITyp) (i : Fin n) :
    gcount (operatorParen cfg inputL zeroL blockE0).glog t i
      = (if ∃ I ∈ cfg.integrals, I.itype = t ∧ i ∈ I.active then 1 else 0)
    ∧ (operatorParen cfg inputL zeroL blockE0).outL
      = runFresh cfg inputL cfg.integrals zeroL := by
  have hc0 : countOK (⟨fun _ _ => false, blockE0, zeroL, []⟩ : PState n LV EV) := by
    intro u j
    simp [gcount]
  have hb0 : blockOK cfg.gatherOp inputL (⟨fun _ _ => false, blockE0, zeroL, []⟩ : PState n LV EV) := by
    intro u j hj
    simp at hj
  constructor
  · have hc := runIntegrals_countOK cfg inputL cfg.integrals _ hc0 t i
    have hiff : (operatorParen cfg inputL zeroL blockE0).already t i = true
        ↔ (∃ I ∈ cfg.integrals, I.itype = t ∧ i ∈ I.active) := by
      unfold operatorParen
      rw [runIntegrals_already]
      simp
    unfold operatorParen at hc hiff ⊢
    rw [hc]
    by_cases hex : ∃ I ∈ cfg.integrals, I.itype = t ∧ i ∈ I.active
    · rw [if_pos (hiff.mpr hex), if_pos hex]
    · rw [if_neg (fun h => hex (hiff.mp h)), if_neg hex]
  · exact runIntegrals_outL cfg inputL cfg.integrals _ hb0

end SeracSpec
